import Mathlib

/-
Verification of the post-receive email hook (src/post-receive-email.py and
src/util.py): a shallow embedding of the change classification, commit
attribution, cover-decision and rendering logic, with theorems checking the
natural-language specification against it.

Modelling conventions
=====================
Commit identifiers are natural numbers, assigned in topological-chronological
order: every parent of a commit has a strictly smaller id than the commit
itself (git history is acyclic, and `git rev-list` output is reverse
chronological).  The repository query service (the `git` module imported by
the script, which is not part of this repository) is modelled from the spec:
`rev-list A ^B ...` returns the commits reachable from A but from none of the
excluded endpoints, newest first; `X^` resolves to the first parent of X and
fails when X has no parent; `cat-file -t` and `rev-parse` are opaque string
functions where only their documented behaviour matters.

Python strings are modelled as Lean strings; character-level operations are
carried out on the underlying character lists.
-/

namespace EmailHook

/-! ## src/util.py -/

/-- Embedding of util.strip_string on character lists: removes one leading
newline when the string starts with one, and one trailing newline when the
string has length greater than one and ends with one (the source computes a
slice `str[start:end]` from the two index adjustments). -/
def strip_string (l : List Char) : List Char :=
  let start := if 0 < l.length ∧ l.head? = some '\n' then 1 else 0
  let stop := if 1 < l.length ∧ l.getLast? = some '\n' then l.length - 1 else l.length
  (l.drop start).take (stop - start)

/-- String-level wrapper of `strip_string` (the source operates on `str`). -/
def strip_string_s (s : String) : String :=
  ⟨strip_string s.data⟩

/-- Claim C9's description of strip_string, written from the claim's words:
one leading newline removed when present, one trailing newline removed when
the length exceeds one and the last character is a newline, everything else
kept in order. -/
def strip_spec (l : List Char) : List Char :=
  let l₁ := if l.head? = some '\n' then l.tail else l
  if 1 < l.length ∧ l.getLast? = some '\n' then l₁.dropLast else l₁

theorem strip_string_nil : strip_string [] = [] := rfl

theorem take_drop_one_eq_tail_dropLast (l : List Char) :
    (l.drop 1).take (l.length - 1 - 1) = l.tail.dropLast := by
  rw [List.dropLast_eq_take, List.drop_one]
  congr 1
  simp

theorem strip_string_eq_strip_spec (l : List Char) : strip_string l = strip_spec l := by
  unfold strip_string strip_spec
  by_cases hh : l.head? = some '\n'
  · have hl0 : (0 < l.length ∧ l.head? = some '\n') := by
      refine ⟨?_, hh⟩
      cases l with
      | nil => simp at hh
      | cons a t => simp
    by_cases ht : 1 < l.length ∧ l.getLast? = some '\n'
    · simp only [if_pos hl0, if_pos ht, if_pos hh]
      exact take_drop_one_eq_tail_dropLast l
    · simp only [if_pos hl0, if_neg ht, if_pos hh]
      rw [List.drop_one]
      have hlen : l.tail.length = l.length - 1 := by simp
      rw [← hlen, List.take_length]
  · have hcond : ¬ (0 < l.length ∧ l.head? = some '\n') := fun h => hh h.2
    by_cases ht : 1 < l.length ∧ l.getLast? = some '\n'
    · simp only [if_neg hcond, if_neg hh, if_pos ht, List.drop_zero, Nat.sub_zero]
      rw [List.dropLast_eq_take]
    · simp only [if_neg hcond, if_neg hh, if_neg ht, List.drop_zero, Nat.sub_zero]
      exact List.take_length l

/-! ## Commit graph and the repository query service

Modelled from the spec: the repository query service ("rev-list semantics")
is an external collaborator.  Commit ids are naturals in
topological-chronological order: every parent id is strictly smaller than its
child's id, and reverse chronological order is descending id order. -/

/-- A commit graph: each commit's parent list (first parent first, as
`git rev-parse X^` resolves the first parent) and its one-line subject. -/
structure Repo where
  parents : Nat → List Nat
  subject : Nat → String
  parents_lt : ∀ n p, p ∈ parents n → p < n

/-- Fuel-bounded ancestry walk; with fuel at least the starting id it
enumerates exactly the commits reachable from `c` (possibly with
repetitions), since ids strictly decrease along parent edges. -/
def reachList (r : Repo) : Nat → Nat → List Nat
  | 0, c => [c]
  | f + 1, c => c :: (r.parents c).bind (fun p => reachList r f p)

/-- Commits reachable from `c` (including `c` itself). -/
def reach (r : Repo) (c : Nat) : List Nat :=
  reachList r c c

theorem parents_zero (r : Repo) : r.parents 0 = [] := by
  cases h : r.parents 0 with
  | nil => rfl
  | cons p t =>
    have := r.parents_lt 0 p (by rw [h]; exact List.mem_cons_self p t)
    omega

theorem reachList_congr (r : Repo) :
    ∀ c f g, c ≤ f → c ≤ g → reachList r f c = reachList r g c := by
  intro c
  induction c using Nat.strong_induction_on with
  | _ c ih =>
    intro f g hf hg
    match c, f, g with
    | 0, 0, 0 => rfl
    | 0, 0, g + 1 => simp [reachList, parents_zero]
    | 0, f + 1, 0 => simp [reachList, parents_zero]
    | 0, f + 1, g + 1 => simp [reachList, parents_zero]
    | c + 1, f + 1, g + 1 =>
      simp only [reachList, List.cons.injEq, true_and]
      apply List.bind_congr
      intro p hp
      have hpc : p < c + 1 := r.parents_lt (c + 1) p hp
      calc reachList r f p = reachList r p p := ih p hpc f p (by omega) (le_refl p)
        _ = reachList r g p := (ih p hpc g p (by omega) (le_refl p)).symm

theorem reach_unfold (r : Repo) (c : Nat) :
    reach r c = c :: (r.parents c).bind (fun p => reach r p) := by
  unfold reach
  match c with
  | 0 => simp [reachList, parents_zero]
  | c + 1 =>
    simp only [reachList, List.cons.injEq, true_and]
    apply List.bind_congr
    intro p hp
    have hpc : p < c + 1 := r.parents_lt (c + 1) p hp
    exact reachList_congr r p c p (by omega) (le_refl p)

theorem self_mem_reach (r : Repo) (c : Nat) : c ∈ reach r c := by
  rw [reach_unfold]
  exact List.mem_cons_self _ _

theorem mem_reachList_le (r : Repo) :
    ∀ f c x, x ∈ reachList r f c → x ≤ c := by
  intro f
  induction f with
  | zero =>
    intro c x hx
    simp [reachList] at hx
    omega
  | succ f ih =>
    intro c x hx
    simp only [reachList, List.mem_cons, List.mem_bind] at hx
    rcases hx with rfl | ⟨p, hp, hx⟩
    · exact le_refl x
    · have := ih p x hx
      have := r.parents_lt c p hp
      omega

theorem mem_reach_le (r : Repo) (c x : Nat) (h : x ∈ reach r c) : x ≤ c :=
  mem_reachList_le r c c x h

/-- Embedding of `git rev-list start ^e₁ ... ^eₖ` (and of
`rev_list_commits(a..b)` with a single exclusion): the commits reachable from
`start` but from none of the excluded endpoints, newest (largest id) first. -/
def rev_list (r : Repo) (start : Nat) (excls : List Nat) : List Nat :=
  ((List.range (start + 1)).reverse).filter
    (fun c => decide (c ∈ reach r start) && excls.all (fun e => decide (c ∉ reach r e)))

theorem mem_rev_list (r : Repo) (start : Nat) (excls : List Nat) (x : Nat) :
    x ∈ rev_list r start excls ↔
      x ∈ reach r start ∧ ∀ e ∈ excls, x ∉ reach r e := by
  unfold rev_list
  rw [List.mem_filter]
  constructor
  · rintro ⟨-, hp⟩
    simp only [Bool.and_eq_true, decide_eq_true_eq, List.all_eq_true] at hp
    exact ⟨hp.1, fun e he => hp.2 e he⟩
  · rintro ⟨hr, he⟩
    refine ⟨?_, ?_⟩
    · rw [List.mem_reverse, List.mem_range]
      have := mem_reach_le r start x hr
      omega
    · simp only [Bool.and_eq_true, decide_eq_true_eq, List.all_eq_true]
      exact ⟨hr, fun e heq => he e heq⟩

theorem nodup_rev_list (r : Repo) (start : Nat) (excls : List Nat) :
    (rev_list r start excls).Nodup :=
  List.Nodup.filter _ (List.nodup_reverse.mpr (List.nodup_range _))

/-! ## Change records and batch state (src/post-receive-email.py) -/

/-- The change-type constants CREATE / UPDATE / DELETE / INVALID_TAG
(src lines 55-58). -/
inductive CType where
  | create
  | update
  | delete
  | invalidTag
deriving DecidableEq, Repr

/-- Classification of a transition by presence of its endpoints, exactly as
RefChange.__init__ assigns self.change_type (src lines 122-129) and as
make_change recomputes it (src lines 801-811). -/
def changeTypeOf {α : Type} (oldrev newrev : Option α) : CType :=
  match oldrev, newrev with
  | none, some _ => CType.create
  | some _, none => CType.delete
  | some _, some _ => CType.update
  | none, none => CType.invalidTag

/-- The part of a Change record that the attribution engine reads: refname
and the two (possibly absent) endpoints. -/
structure ChangeRec where
  refname : String
  oldrev : Option Nat
  newrev : Option Nat
deriving DecidableEq, Repr

def ChangeRec.change_type (c : ChangeRec) : CType :=
  changeTypeOf c.oldrev c.newrev

/-- Post-push repository state seen by prepare(): the commit graph and the
output of `git rev-parse --symbolic-full-name --branches`, with each branch
refname paired with the commit its tip resolves to. -/
structure GitState where
  repo : Repo
  branches : List (String × Nat)

/-- Lookup in the all_changes / processed_changes dicts (keyed by refname;
a refname occurs at most once per push, so association-list lookup agrees
with the Python dict). -/
def lookup_change : List (String × ChangeRec) → String → Option ChangeRec
  | [], _ => none
  | (k, v) :: rest, b => if b = k then some v else lookup_change rest b

theorem lookup_change_mem {all : List (String × ChangeRec)} {b : String}
    {rec : ChangeRec} (h : lookup_change all b = some rec) : (b, rec) ∈ all := by
  induction all with
  | nil => simp [lookup_change] at h
  | cons kv rest ih =>
    obtain ⟨k, v⟩ := kv
    by_cases hb : b = k
    · subst hb
      simp [lookup_change] at h
      subst h
      exact List.mem_cons_self _ _
    · simp [lookup_change, hb] at h
      exact List.mem_cons_of_mem _ (ih h)

/-- Modelled from the spec: commit_is_merge from the git helper module — a
commit is a merge when it has more than one parent. -/
def commit_is_merge (r : Repo) (c : Nat) : Bool :=
  decide (1 < (r.parents c).length)

/-- Exclusion endpoints contributed by one enumerated branch, mirroring the
loop body of BranchChange.prepare (src lines 213-225).  `none` models the
Python TypeError that `"^" + None` would raise. -/
def branch_exclusion (self : ChangeRec) (all_changes : List (String × ChangeRec))
    (processed_changes : List String) (b : String × Nat) : Option (List Nat) :=
  if b.1 = self.refname then
    -- for this branch, exclude commits before oldrev (skip on creation)
    if self.change_type ≠ CType.create then
      self.oldrev.map (fun o => [o])
    else some []
  else
    match lookup_change all_changes b.1 with
    | some rec =>
      if b.1 ∉ processed_changes then
        -- a branch updated in this push and not yet processed: exclude
        -- commits before its old revision (skip when it is a creation)
        if rec.change_type ≠ CType.create then
          rec.oldrev.map (fun o => [o])
        else some []
      else some [b.2]
    | none => some [b.2]

/-- The for-loop of prepare() that builds detailed_commit_args, gathering
each branch's exclusion endpoints in order. -/
def collect_exclusions (self : ChangeRec) (all_changes : List (String × ChangeRec))
    (processed_changes : List String) : List (String × Nat) → Option (List Nat)
  | [] => some []
  | b :: rest => do
    let e ← branch_exclusion self all_changes processed_changes b
    let r ← collect_exclusions self all_changes processed_changes rest
    pure (e ++ r)

/-- The attribution result stored on a BranchChange by prepare():
detailedList mirrors the local rev-list output `detailed_commits` (newest
first) from which the set self.detailed_commits is built. -/
structure PrepareResult where
  detailedList : List Nat
  detailed_commits : Finset Nat
  added_commits : List Nat
  removed_commits : List Nat
  needs_cover_email : Bool
deriving DecidableEq

/-- Embedding of BranchChange.prepare (src lines 197-284), called only on
branch creations and updates.  `none` models an uncaught Python exception
(e.g. string concatenation with None); the CalledProcessError from resolving
the parent of a rootless first detailed commit is caught in the source and
therefore handled locally here (src lines 249-259). -/
def prepare (g : GitState) (self : ChangeRec) (all_changes : List (String × ChangeRec))
    (processed_changes : List String) : Option PrepareResult :=
  match self.newrev with
  | none => none
  | some newrev =>
    (collect_exclusions self all_changes processed_changes g.branches).bind (fun excls =>
      let detailedList := rev_list g.repo newrev excls
      let added_removed : Option (List Nat × List Nat) :=
        if self.change_type = CType.create then
          some (match detailedList.getLast? with
            | some oldest =>
              -- git.rev_parse(detailed_commits[-1] + "^"): first parent of the
              -- oldest detailed commit; CalledProcessError when there is none
              (match (g.repo.parents oldest).head? with
                | none => ([], [])
                | some parent => ((rev_list g.repo newrev [parent]).reverse, []))
            | none => ([], []))
        else
          match self.oldrev with
          | none => none
          | some o =>
            some ((rev_list g.repo newrev [o]).reverse, (rev_list g.repo o [newrev]).reverse)
      added_removed.map (fun ar =>
        { detailedList := detailedList
          detailed_commits := detailedList.toFinset
          added_commits := ar.1
          removed_commits := ar.2
          needs_cover_email :=
            decide (self.change_type = CType.create) ||
            decide (0 < ar.2.length) ||
            ar.1.any (fun c => commit_is_merge g.repo c) ||
            decide (detailedList.toFinset.card < ar.1.length) }))

/-! ## Concrete repositories for evaluation -/

/-- Parent table lookup used to build concrete commit graphs. -/
def tableGet (t : List (Nat × List Nat)) (n : Nat) : List Nat :=
  match t with
  | [] => []
  | (k, v) :: rest => if n = k then v else tableGet rest n

theorem tableGet_wf (t : List (Nat × List Nat))
    (h : ∀ pr ∈ t, ∀ p ∈ pr.2, p < pr.1) :
    ∀ n p, p ∈ tableGet t n → p < n := by
  induction t with
  | nil => intro n p hp; simp [tableGet] at hp
  | cons kv rest ih =>
    obtain ⟨k, v⟩ := kv
    intro n p hp
    by_cases hk : n = k
    · subst hk
      simp only [tableGet, if_pos rfl] at hp
      exact h (n, v) (List.mem_cons_self _ _) p hp
    · simp only [tableGet, if_neg hk] at hp
      exact ih (fun pr hpr => h pr (List.mem_cons_of_mem _ hpr)) n p hp

/-- Builds a Repo from a finite parent table whose well-formedness is
decidable (commits absent from the table are roots). -/
def Repo.ofTable (t : List (Nat × List Nat)) (subj : Nat → String)
    (h : ∀ pr ∈ t, ∀ p ∈ pr.2, p < pr.1) : Repo where
  parents := fun n => tableGet t n
  subject := subj
  parents_lt := tableGet_wf t h

/-! ## Lemmas about the exclusion loop of prepare() -/

theorem change_type_create_oldrev {c : ChangeRec}
    (h : c.change_type = CType.create) : c.oldrev = none := by
  unfold ChangeRec.change_type changeTypeOf at h
  cases ho : c.oldrev with
  | none => rfl
  | some o =>
    rw [ho] at h
    cases hn : c.newrev with
    | none => rw [hn] at h; exact absurd h (by simp)
    | some n => rw [hn] at h; exact absurd h (by simp)

theorem collect_exclusions_mem (self : ChangeRec) (all : List (String × ChangeRec))
    (proc : List String) :
    ∀ (bs : List (String × Nat)) (excls : List Nat),
      collect_exclusions self all proc bs = some excls →
      ∀ e, e ∈ excls ↔
        ∃ b ∈ bs, ∃ l, branch_exclusion self all proc b = some l ∧ e ∈ l := by
  intro bs
  induction bs with
  | nil =>
    intro excls h e
    simp only [collect_exclusions, Option.some.injEq] at h
    subst h
    simp
  | cons b rest ih =>
    intro excls h e
    simp only [collect_exclusions, Option.bind_eq_bind, Option.bind_eq_some] at h
    obtain ⟨l, hl, r, hr, hcat⟩ := h
    simp only [Option.pure_def, Option.some.injEq] at hcat
    subst hcat
    rw [List.mem_append]
    constructor
    · rintro (hel | her)
      · exact ⟨b, List.mem_cons_self _ _, l, hl, hel⟩
      · obtain ⟨b', hb', l', hl', hel'⟩ := (ih r hr e).mp her
        exact ⟨b', List.mem_cons_of_mem _ hb', l', hl', hel'⟩
    · rintro ⟨b', hb', l', hl', hel'⟩
      rcases List.mem_cons.mp hb' with rfl | hb'
      · rw [hl] at hl'
        cases hl'
        exact Or.inl hel'
      · exact Or.inr ((ih r hr e).mpr ⟨b', hb', l', hl', hel'⟩)

theorem collect_exclusions_sub {self : ChangeRec} {all : List (String × ChangeRec)}
    {proc : List String} {bs : List (String × Nat)} {excls l : List Nat}
    {b : String × Nat} (hb : b ∈ bs)
    (h : collect_exclusions self all proc bs = some excls)
    (hl : branch_exclusion self all proc b = some l) : l ⊆ excls := by
  intro e he
  exact (collect_exclusions_mem self all proc bs excls h e).mpr ⟨b, hb, l, hl, he⟩

theorem collect_exclusions_total (self : ChangeRec) (all : List (String × ChangeRec))
    (proc : List String)
    (hself : self.change_type ≠ CType.create → self.oldrev.isSome)
    (hall : ∀ pr ∈ all, pr.2.change_type ≠ CType.create → pr.2.oldrev.isSome) :
    ∀ bs : List (String × Nat), ∃ excls, collect_exclusions self all proc bs = some excls := by
  intro bs
  induction bs with
  | nil => exact ⟨[], rfl⟩
  | cons b rest ih =>
    obtain ⟨r, hr⟩ := ih
    have hbe : ∃ l, branch_exclusion self all proc b = some l := by
      by_cases h1 : b.1 = self.refname
      · by_cases h2 : self.change_type = CType.create
        · exact ⟨[], by simp [branch_exclusion, h1, h2]⟩
        · obtain ⟨o, ho⟩ := Option.isSome_iff_exists.mp (hself h2)
          exact ⟨[o], by simp [branch_exclusion, h1, h2, ho]⟩
      · cases hlk : lookup_change all b.1 with
        | none => exact ⟨[b.2], by simp [branch_exclusion, h1, hlk]⟩
        | some rec =>
          by_cases hproc : b.1 ∈ proc
          · exact ⟨[b.2], by simp [branch_exclusion, h1, hlk, hproc]⟩
          · by_cases h2 : rec.change_type = CType.create
            · exact ⟨[], by simp [branch_exclusion, h1, hlk, hproc, h2]⟩
            · obtain ⟨o, ho⟩ := Option.isSome_iff_exists.mp
                (show rec.oldrev.isSome from hall (b.1, rec) (lookup_change_mem hlk) h2)
              exact ⟨[o], by simp [branch_exclusion, h1, hlk, hproc, h2, ho]⟩
    obtain ⟨l, hl⟩ := hbe
    exact ⟨l ++ r, by simp only [collect_exclusions, Option.bind_eq_bind, hl, hr,
      Option.bind_some, Option.some.injEq]; rfl⟩

/-- Case analysis of a successful prepare(): exposes the rev-list queries
behind each stored field, in both the creation and the update branch. -/
theorem prepare_some_elim {g : GitState} {self : ChangeRec}
    {all : List (String × ChangeRec)} {proc : List String} {res : PrepareResult}
    (h : prepare g self all proc = some res) :
    ∃ n excls, self.newrev = some n ∧
      collect_exclusions self all proc g.branches = some excls ∧
      res.detailedList = rev_list g.repo n excls ∧
      res.detailed_commits = (rev_list g.repo n excls).toFinset ∧
      res.needs_cover_email = (decide (self.change_type = CType.create) ||
        decide (0 < res.removed_commits.length) ||
        res.added_commits.any (fun c => commit_is_merge g.repo c) ||
        decide ((rev_list g.repo n excls).toFinset.card < res.added_commits.length)) ∧
      ((self.change_type = CType.create ∧
          res.removed_commits = [] ∧
          ((res.detailedList.getLast? = none ∧ res.added_commits = []) ∨
           (∃ oldest, res.detailedList.getLast? = some oldest ∧
             (((g.repo.parents oldest).head? = none ∧ res.added_commits = []) ∨
              (∃ parent, (g.repo.parents oldest).head? = some parent ∧
                res.added_commits = (rev_list g.repo n [parent]).reverse))))) ∨
       (self.change_type ≠ CType.create ∧ ∃ o, self.oldrev = some o ∧
          res.added_commits = (rev_list g.repo n [o]).reverse ∧
          res.removed_commits = (rev_list g.repo o [n]).reverse)) := by
  unfold prepare at h
  cases hn : self.newrev with
  | none => rw [hn] at h; exact absurd h (by simp)
  | some n =>
    rw [hn] at h
    cases hcol : collect_exclusions self all proc g.branches with
    | none => rw [hcol] at h; exact absurd h (by simp)
    | some excls =>
      rw [hcol] at h
      simp only [Option.some_bind] at h
      refine ⟨n, excls, rfl, rfl, ?_⟩
      by_cases hc : self.change_type = CType.create
      · rw [if_pos hc] at h
        cases hlast : (rev_list g.repo n excls).getLast? with
        | none =>
          rw [hlast] at h
          simp only [Option.map_some', Option.some.injEq] at h
          subst h
          exact ⟨rfl, rfl, rfl, Or.inl ⟨hc, rfl, Or.inl ⟨hlast, rfl⟩⟩⟩
        | some oldest =>
          cases hpar : (g.repo.parents oldest).head? with
          | none =>
            rw [hlast] at h
            simp only [hpar, Option.map_some', Option.some.injEq] at h
            subst h
            exact ⟨rfl, rfl, rfl,
              Or.inl ⟨hc, rfl, Or.inr ⟨oldest, hlast, Or.inl ⟨hpar, rfl⟩⟩⟩⟩
          | some parent =>
            rw [hlast] at h
            simp only [hpar, Option.map_some', Option.some.injEq] at h
            subst h
            exact ⟨rfl, rfl, rfl,
              Or.inl ⟨hc, rfl, Or.inr ⟨oldest, hlast, Or.inr ⟨parent, hpar, rfl⟩⟩⟩⟩
      · rw [if_neg hc] at h
        cases ho : self.oldrev with
        | none => rw [ho] at h; exact absurd h (by simp)
        | some o =>
          rw [ho] at h
          simp only [Option.map_some', Option.some.injEq] at h
          subst h
          exact ⟨rfl, rfl, rfl, Or.inr ⟨hc, o, rfl, rfl, rfl⟩⟩

/-- In a branch update whose refname is among the enumerated branches, the
detailed set is contained in the added commits: the loop always appends
`^oldrev` for the updated branch itself. -/
theorem detailed_subset_added {g : GitState} {self : ChangeRec}
    {all : List (String × ChangeRec)} {proc : List String} {n o : Nat} {excls : List Nat}
    (ho : self.oldrev = some o)
    (hnc : self.change_type ≠ CType.create)
    (hcol : collect_exclusions self all proc g.branches = some excls)
    (hb : self.refname ∈ g.branches.map Prod.fst) :
    (rev_list g.repo n excls).toFinset ⊆ ((rev_list g.repo n [o]).reverse).toFinset := by
  intro x hx
  rw [List.mem_toFinset] at hx
  rw [List.mem_toFinset, List.mem_reverse]
  obtain ⟨hr, hexcl⟩ := (mem_rev_list _ _ _ _).mp hx
  obtain ⟨b, hbmem, hbfst⟩ := List.mem_map.mp hb
  have hexb : branch_exclusion self all proc b = some [o] := by
    simp [branch_exclusion, hbfst, hnc, ho]
  have hoin : o ∈ excls :=
    collect_exclusions_sub hbmem hcol hexb (by simp)
  rw [mem_rev_list]
  refine ⟨hr, ?_⟩
  intro e he
  rw [List.mem_singleton] at he
  rw [he]
  exact hexcl o hoin

theorem prepare_added_nodup {g : GitState} {self : ChangeRec}
    {all : List (String × ChangeRec)} {proc : List String} {res : PrepareResult}
    (h : prepare g self all proc = some res) : res.added_commits.Nodup := by
  obtain ⟨n, excls, -, -, -, -, -, hcase⟩ := prepare_some_elim h
  rcases hcase with ⟨-, -, hcr⟩ | ⟨-, o, -, hadd, -⟩
  · rcases hcr with ⟨-, hadd⟩ | ⟨oldest, -, ⟨-, hadd⟩ | ⟨parent, -, hadd⟩⟩
    · rw [hadd]; exact List.nodup_nil
    · rw [hadd]; exact List.nodup_nil
    · rw [hadd]; exact List.nodup_reverse.mpr (nodup_rev_list _ _ _)
  · rw [hadd]; exact List.nodup_reverse.mpr (nodup_rev_list _ _ _)

/-- Claim C1: for every branch create or update transition, after prepare()
the cover decision needs_cover is true if and only if the transition is a
creation, or the removed list is non-empty, or some added commit is a merge,
or the detailed set is a strict subset of the added commits.  The hypothesis
hb reflects the post-push repository state: the branch being created or
updated is among the enumerated branches. -/
theorem claim_C1_needs_cover_iff (g : GitState) (self : ChangeRec)
    (all : List (String × ChangeRec)) (proc : List String) (res : PrepareResult)
    (h : prepare g self all proc = some res)
    (hb : self.refname ∈ g.branches.map Prod.fst) :
    res.needs_cover_email = true ↔
      (self.change_type = CType.create ∨ res.removed_commits ≠ [] ∨
       (∃ c ∈ res.added_commits, commit_is_merge g.repo c = true) ∨
       res.detailed_commits ⊂ res.added_commits.toFinset) := by
  obtain ⟨n, excls, hn, hcol, hdl, hds, hcover, hcase⟩ := prepare_some_elim h
  rcases hcase with ⟨hc, hrem, -⟩ | ⟨hc, o, ho, hadd, hrem⟩
  · constructor
    · intro _
      exact Or.inl hc
    · intro _
      rw [hcover, hc]
      simp
  · -- update case: the first disjunct is false and the detailed set is
    -- contained in the added commits, so the cardinality test used by the
    -- source is exactly strict inclusion
    have hsub : res.detailed_commits ⊆ res.added_commits.toFinset := by
      rw [hds, hadd]
      exact detailed_subset_added ho hc hcol hb
    have hdcard : res.detailed_commits.card = res.detailedList.length := by
      rw [hds, hdl]
      exact List.toFinset_card_of_nodup (nodup_rev_list _ _ _)
    have hacard : res.added_commits.toFinset.card = res.added_commits.length := by
      exact List.toFinset_card_of_nodup (prepare_added_nodup h)
    have hcardiff : (rev_list g.repo n excls).toFinset.card < res.added_commits.length ↔
        res.detailed_commits ⊂ res.added_commits.toFinset := by
      rw [← hds, ← hacard]
      constructor
      · intro hlt
        refine Finset.ssubset_iff_subset_ne.mpr ⟨hsub, fun heq => ?_⟩
        rw [heq] at hlt
        exact lt_irrefl _ hlt
      · exact Finset.card_lt_card
    rw [hcover]
    simp only [Bool.or_eq_true, decide_eq_true_eq, List.any_eq_true, or_assoc]
    exact or_congr Iff.rfl (or_congr List.length_pos (or_congr Iff.rfl hcardiff))

/-- Claim C2's exclusion rule, written from the spec's words: the exclusion
endpoint for the transition's own branch is its old position (none on a
creation); for a sibling branch in the current batch and not yet processed it
is that sibling's old pre-push position (absent for a sibling creation); for
every other branch it is the branch's current tip. -/
def exclusion_endpoint_spec (self : ChangeRec) (all_changes : List (String × ChangeRec))
    (processed_changes : List String) (b : String × Nat) : Option Nat :=
  if b.1 = self.refname then
    (if self.change_type = CType.create then none else self.oldrev)
  else if (lookup_change all_changes b.1).isSome ∧ b.1 ∉ processed_changes then
    (lookup_change all_changes b.1).bind (fun rec => rec.oldrev)
  else
    some b.2

theorem branch_exclusion_spec {self : ChangeRec} {all : List (String × ChangeRec)}
    {proc : List String} {b : String × Nat} {l : List Nat}
    (h : branch_exclusion self all proc b = some l) :
    ∀ e, e ∈ l ↔ exclusion_endpoint_spec self all proc b = some e := by
  intro e
  unfold branch_exclusion at h
  unfold exclusion_endpoint_spec
  by_cases h1 : b.1 = self.refname
  · rw [if_pos h1] at h
    rw [if_pos h1]
    by_cases h2 : self.change_type = CType.create
    · rw [if_neg (not_not_intro h2)] at h
      rw [if_pos h2]
      cases h
      simp
    · rw [if_pos h2] at h
      rw [if_neg h2]
      cases ho : self.oldrev with
      | none => rw [ho] at h; exact absurd h (by simp)
      | some o =>
        rw [ho] at h
        simp only [Option.map_some', Option.some.injEq] at h
        subst h
        simp [eq_comm]
  · rw [if_neg h1] at h
    rw [if_neg h1]
    cases hlk : lookup_change all b.1 with
    | none =>
      simp only [hlk, Option.some.injEq] at h
      subst h
      rw [if_neg (by simp [hlk])]
      simp [eq_comm]
    | some rec =>
      simp only [hlk] at h
      by_cases hproc : b.1 ∈ proc
      · rw [if_neg (not_not_intro hproc)] at h
        simp only [Option.some.injEq] at h
        subst h
        rw [if_neg (by simp [hproc])]
        simp [eq_comm]
      · rw [if_pos hproc] at h
        rw [if_pos (by simp [hlk, hproc])]
        by_cases h2 : rec.change_type = CType.create
        · rw [if_neg (not_not_intro h2)] at h
          cases h
          simp [change_type_create_oldrev h2]
        · rw [if_pos h2] at h
          cases ho : rec.oldrev with
          | none => rw [ho] at h; exact absurd h (by simp)
          | some o =>
            rw [ho] at h
            simp only [Option.map_some', Option.some.injEq] at h
            subst h
            simp [Option.bind, ho, eq_comm]

theorem collect_exclusions_branch_some {self : ChangeRec}
    {all : List (String × ChangeRec)} {proc : List String} {bs : List (String × Nat)}
    {excls : List Nat} {b : String × Nat}
    (h : collect_exclusions self all proc bs = some excls) (hb : b ∈ bs) :
    ∃ l, branch_exclusion self all proc b = some l := by
  induction bs generalizing excls with
  | nil => simp at hb
  | cons b0 rest ih =>
    simp only [collect_exclusions, Option.bind_eq_bind, Option.bind_eq_some] at h
    obtain ⟨l, hl, r, hr, -⟩ := h
    rcases List.mem_cons.mp hb with rfl | hb'
    · exact ⟨l, hl⟩
    · exact ih hr hb'

/-- Claim C2: the detailed set computed by prepare() is exactly the set of
commits reachable from the new position but from no branch's exclusion
endpoint, with the endpoints as described by the spec (own branch: its old
position, none on a creation; unprocessed batch sibling: its old pre-push
position; anything else: the branch's current tip). -/
theorem claim_C2_detailed_set (g : GitState) (self : ChangeRec)
    (all : List (String × ChangeRec)) (proc : List String) (res : PrepareResult) (n : Nat)
    (h : prepare g self all proc = some res) (hn : self.newrev = some n) :
    ∀ x, x ∈ res.detailed_commits ↔
      (x ∈ reach g.repo n ∧
       ∀ b ∈ g.branches, ∀ e, exclusion_endpoint_spec self all proc b = some e →
         x ∉ reach g.repo e) := by
  obtain ⟨n', excls, hn', hcol, hdl, hds, -, -⟩ := prepare_some_elim h
  rw [hn] at hn'
  cases hn'
  intro x
  rw [hds, List.mem_toFinset, mem_rev_list]
  refine and_congr Iff.rfl ⟨?_, ?_⟩
  · intro hx b hbmem e hspec
    obtain ⟨l, hl⟩ := collect_exclusions_branch_some hcol hbmem
    have hel : e ∈ l := (branch_exclusion_spec hl e).mpr hspec
    exact hx e (collect_exclusions_sub hbmem hcol hl hel)
  · intro hx e he
    obtain ⟨b, hbmem, l, hl, hel⟩ :=
      (collect_exclusions_mem self all proc g.branches excls hcol e).mp he
    exact hx b hbmem e ((branch_exclusion_spec hl e).mp hel)

/-- Claim C3: for a branch creation (old endpoint absent), prepare() always
succeeds — the unresolvable-parent case is caught and treated as an empty
result — and: removed is empty; if the detailed set is empty so is added;
otherwise added is the rev-list walk from the first parent of the oldest
detailed commit (the last element of the newest-first detailed rev-list
output) up to the new position, and is empty when that commit has no parent.
The hypothesis hall states that sibling records are well formed (a non-create
record has an old endpoint), which RefChange.__init__ guarantees for every
branch record in all_changes. -/
theorem claim_C3_creation_added (g : GitState) (self : ChangeRec)
    (all : List (String × ChangeRec)) (proc : List String) (n : Nat)
    (hn : self.newrev = some n) (ho : self.oldrev = none)
    (hall : ∀ pr ∈ all, pr.2.change_type ≠ CType.create → pr.2.oldrev.isSome) :
    ∃ res, prepare g self all proc = some res ∧
      res.removed_commits = [] ∧
      (res.detailed_commits = ∅ → res.added_commits = []) ∧
      (∀ oldest, res.detailedList.getLast? = some oldest →
        ((g.repo.parents oldest = [] → res.added_commits = []) ∧
         (∀ parent, (g.repo.parents oldest).head? = some parent →
            res.added_commits = (rev_list g.repo n [parent]).reverse))) := by
  have hct : self.change_type = CType.create := by
    unfold ChangeRec.change_type
    rw [ho, hn]
    rfl
  obtain ⟨excls, hcol⟩ :=
    collect_exclusions_total self all proc (fun hc => absurd hct hc) hall g.branches
  have hprep : ∃ res, prepare g self all proc = some res := by
    unfold prepare
    rw [hn, hcol]
    simp only [Option.some_bind, if_pos hct, Option.map_some']
    exact ⟨_, rfl⟩
  obtain ⟨res, hres⟩ := hprep
  refine ⟨res, hres, ?_⟩
  obtain ⟨n', excls', hn', hcol', hdl, hds, -, hcase⟩ := prepare_some_elim hres
  rw [hn] at hn'
  cases hn'
  rcases hcase with ⟨-, hrem, hcr⟩ | ⟨hnc, -⟩
  · refine ⟨hrem, ?_, ?_⟩
    · intro hdempty
      have hdnil : res.detailedList = [] := by
        have := hds ▸ hdempty
        rw [hdl]
        exact List.toFinset_eq_empty_iff _ |>.mp this
      rcases hcr with ⟨-, hadd⟩ | ⟨oldest, hlast, -⟩
      · exact hadd
      · rw [hdnil] at hlast
        simp at hlast
    · intro oldest hlast
      rcases hcr with ⟨hlastnone, -⟩ | ⟨oldest', hlast', hsub⟩
      · rw [hlast] at hlastnone
        cases hlastnone
      · rw [hlast] at hlast'
        cases hlast'
        rcases hsub with ⟨hparnone, hadd⟩ | ⟨parent, hpar, hadd⟩
        · refine ⟨fun _ => hadd, ?_⟩
          intro parent hp
          rw [hparnone] at hp
          cases hp
        · refine ⟨?_, ?_⟩
          · intro hnilpar
            rw [hnilpar] at hpar
            cases hpar
          · intro parent' hp
            rw [hpar] at hp
            cases hp
            exact hadd
  · exact absurd hct hnc

/-! ## Per-commit notifications: BranchChange.send_extra_emails -/

/-- Subject truncation bound (src line 53). -/
def SUBJECT_MAX_SUBJECT_CHARS : Nat := 100

/-- One per-commit notification: the commit it is about, the count string
spliced into its subject, and the full subject line. -/
structure EmailEntry where
  commitId : Nat
  countString : String
  subject : String
deriving DecidableEq, Repr

/-- Body of the send_extra_emails loop (src lines 318-359) for the commit at
position i of added_commits; rev_list_all_count stands for the value of
`git.rev_list('--all').count('\n')`. -/
def extra_email_entry (r : Repo) (projectshort short_refname : String)
    (rev_list_all_count total : Nat) (needs_cover : Bool) (i c : Nat) : EmailEntry :=
  let branch := if short_refname = "master" then "" else "/" ++ short_refname
  let count_string :=
    if 1 < total ∧ needs_cover = true then
      ": " ++ toString (i + 1) ++ "/" ++ toString total
    else ""
  let revision : Int := (rev_list_all_count : Int) + 1 - ((total : Int) - ((i : Int) + 1))
  { commitId := c
    countString := count_string
    subject := "[" ++ projectshort ++ branch ++ count_string ++ "] [" ++
      toString revision ++ "] " ++ (r.subject c).take SUBJECT_MAX_SUBJECT_CHARS }

/-- Embedding of BranchChange.send_extra_emails (src lines 315-359): iterate
added_commits with their indices, skip commits outside the detailed set, and
send one message per remaining commit. -/
def send_extra_emails (r : Repo) (projectshort : String) (rev_list_all_count : Nat)
    (short_refname : String) (res : PrepareResult) : List EmailEntry :=
  (res.added_commits.enum).filterMap (fun ic =>
    if ic.2 ∈ res.detailed_commits then
      some (extra_email_entry r projectshort short_refname rev_list_all_count
        res.added_commits.length res.needs_cover_email ic.1 ic.2)
    else none)

/-- Position of the first occurrence of a value in a list. -/
def indexOfN : List Nat → Nat → Nat
  | [], _ => 0
  | x :: rest, c => if x = c then 0 else indexOfN rest c + 1

theorem indexOfN_of_get? : ∀ (l : List Nat) (j c : Nat),
    l.Nodup → l.get? j = some c → indexOfN l c = j := by
  intro l
  induction l with
  | nil => intro j c _ h; simp at h
  | cons x rest ih =>
    intro j c hnd hget
    cases j with
    | zero =>
      simp only [List.get?] at hget
      cases hget
      simp [indexOfN]
    | succ j' =>
      simp only [List.get?] at hget
      have hcmem : c ∈ rest := List.get?_mem hget
      have hx : x ≠ c := by
        intro hxc
        subst hxc
        exact (List.nodup_cons.mp hnd).1 hcmem
      simp only [indexOfN, if_neg hx]
      rw [ih j' c (List.nodup_cons.mp hnd).2 hget]

theorem mem_filterMap_enumFrom (S : Finset Nat) (F : Nat → Nat → EmailEntry) :
    ∀ (l : List Nat) (k : Nat) (e : EmailEntry),
      (e ∈ (l.enumFrom k).filterMap
          (fun ic => if ic.2 ∈ S then some (F ic.1 ic.2) else none)) ↔
        ∃ j c, l.get? j = some c ∧ c ∈ S ∧ e = F (k + j) c := by
  intro l
  induction l with
  | nil =>
    intro k e
    simp
  | cons c0 rest ih =>
    intro k e
    have harith : ∀ j : Nat, k + 1 + j = k + (j + 1) := fun j => by omega
    simp only [List.enumFrom, List.filterMap_cons]
    by_cases hc : c0 ∈ S
    · rw [if_pos hc]
      simp only [List.mem_cons, ih (k + 1)]
      constructor
      · rintro (rfl | ⟨j, c, hg, hcS, rfl⟩)
        · exact ⟨0, c0, rfl, hc, by rw [Nat.add_zero]⟩
        · exact ⟨j + 1, c, hg, hcS, by rw [← harith j]⟩
      · rintro ⟨j, c, hg, hcS, rfl⟩
        cases j with
        | zero =>
          simp only [List.get?] at hg
          cases hg
          exact Or.inl (by rw [Nat.add_zero])
        | succ j' =>
          simp only [List.get?] at hg
          exact Or.inr ⟨j', c, hg, hcS, by rw [harith j']⟩
    · rw [if_neg hc]
      rw [ih (k + 1) e]
      constructor
      · rintro ⟨j, c, hg, hcS, rfl⟩
        exact ⟨j + 1, c, hg, hcS, by rw [← harith j]⟩
      · rintro ⟨j, c, hg, hcS, rfl⟩
        cases j with
        | zero =>
          simp only [List.get?] at hg
          cases hg
          exact absurd hcS hc
        | succ j' =>
          simp only [List.get?] at hg
          exact ⟨j', c, hg, hcS, by rw [harith j']⟩

theorem filterMap_enumFrom_map_commitId (S : Finset Nat) (F : Nat → Nat → EmailEntry)
    (hF : ∀ i c, (F i c).commitId = c) :
    ∀ (l : List Nat) (k : Nat),
      (((l.enumFrom k).filterMap
          (fun ic => if ic.2 ∈ S then some (F ic.1 ic.2) else none)).map
        (fun e => e.commitId)) = l.filter (fun c => decide (c ∈ S)) := by
  intro l
  induction l with
  | nil => intro k; rfl
  | cons c0 rest ih =>
    intro k
    simp only [List.enumFrom, List.filterMap_cons, List.filter_cons]
    by_cases hc : c0 ∈ S
    · rw [if_pos hc, if_pos (by simpa using hc)]
      simp only [List.map_cons, hF, ih (k + 1)]
    · rw [if_neg hc, if_neg (by simpa using hc)]
      exact ih (k + 1)

/-- Claim C7 (amended): per-commit notifications are emitted exactly for the
added commits that lie in the detailed set, in added order; and a per-commit
subject carries the sequential index i/total precisely when a cover
notification exists AND the added list has more than one commit (the source
requires `total > 1 and self.needs_cover_email`). -/
theorem claim_C7_per_commit_emails (g : GitState) (self : ChangeRec)
    (all : List (String × ChangeRec)) (proc : List String) (res : PrepareResult)
    (projectshort short_refname : String) (rev_list_all_count : Nat)
    (h : prepare g self all proc = some res) :
    ((send_extra_emails g.repo projectshort rev_list_all_count short_refname res).map
        (fun e => e.commitId) =
      res.added_commits.filter (fun c => decide (c ∈ res.detailed_commits))) ∧
    (∀ e ∈ send_extra_emails g.repo projectshort rev_list_all_count short_refname res,
       e.countString =
         if 1 < res.added_commits.length ∧ res.needs_cover_email = true then
           ": " ++ toString (indexOfN res.added_commits e.commitId + 1) ++ "/" ++
             toString res.added_commits.length
         else "") := by
  have hnd := prepare_added_nodup h
  constructor
  · exact filterMap_enumFrom_map_commitId res.detailed_commits
      (fun i c => extra_email_entry g.repo projectshort short_refname rev_list_all_count
        res.added_commits.length res.needs_cover_email i c)
      (fun i c => rfl) res.added_commits 0
  · intro e he
    unfold send_extra_emails at he
    obtain ⟨j, c, hget, hcS, rfl⟩ :=
      (mem_filterMap_enumFrom res.detailed_commits
        (fun i c => extra_email_entry g.repo projectshort short_refname rev_list_all_count
          res.added_commits.length res.needs_cover_email i c)
        res.added_commits 0 e).mp he
    have hidx : indexOfN res.added_commits c = j := indexOfN_of_get? _ j c hnd hget
    have h0j : (0 : Nat) + j = j := Nat.zero_add j
    rw [h0j]
    show (extra_email_entry _ _ _ _ _ _ j c).countString = _
    simp only [extra_email_entry]
    rw [hidx]

/-! ## Concrete scenarios used as evidence

repoA: commit 0 is the root, commits 1 and 2 both have parent 0.
Scenario A is a non-fast-forward update of refs/heads/master from 1 to 2
pushed on its own; scenario C is the creation of refs/heads/feature at 1
while master sits at 2. -/

def repoA : Repo :=
  Repo.ofTable [(1, [0]), (2, [0])] (fun _ => "Fix bug") (by decide)

def gitA : GitState :=
  { repo := repoA, branches := [("refs/heads/master", 2)] }

def changeA : ChangeRec :=
  { refname := "refs/heads/master", oldrev := some 1, newrev := some 2 }

def resA : PrepareResult :=
  { detailedList := [2], detailed_commits := {2}, added_commits := [2],
    removed_commits := [1], needs_cover_email := true }

def gitC : GitState :=
  { repo := repoA, branches := [("refs/heads/feature", 1), ("refs/heads/master", 2)] }

def changeC : ChangeRec :=
  { refname := "refs/heads/feature", oldrev := none, newrev := some 1 }

set_option maxRecDepth 8000 in
/-- Claim C7 counterexample: in scenario A a cover notification exists
(needs_cover is true, the update is not a fast-forward) and the single
detailed commit's notification carries an empty count string — its subject
"[proj] [4] Fix bug" has no sequential index, contradicting the claim that
whenever a cover notification exists each per-commit subject carries one. -/
theorem claim_C7_counterexample :
    prepare gitA changeA [("refs/heads/master", changeA)] [] = some resA ∧
    resA.needs_cover_email = true ∧
    send_extra_emails gitA.repo "proj" 3 "master" resA =
      [{ commitId := 2, countString := "", subject := "[proj] [4] Fix bug" }] :=
  ⟨by decide, rfl, by decide⟩

set_option maxRecDepth 8000 in
/-- Witness for claim C1 at scenario A: the hypotheses hold and the proved
equivalence holds there. -/
theorem claim_C1_witness :
    prepare gitA changeA [("refs/heads/master", changeA)] [] = some resA ∧
    changeA.refname ∈ gitA.branches.map Prod.fst ∧
    (resA.needs_cover_email = true ↔
      (changeA.change_type = CType.create ∨ resA.removed_commits ≠ [] ∨
       (∃ c ∈ resA.added_commits, commit_is_merge gitA.repo c = true) ∨
       resA.detailed_commits ⊂ resA.added_commits.toFinset)) :=
  ⟨by decide, by decide,
    claim_C1_needs_cover_iff gitA changeA [("refs/heads/master", changeA)] [] resA
      (by decide) (by decide)⟩

set_option maxRecDepth 8000 in
/-- Witness for claim C2 at scenario A, instantiated at commit 2. -/
theorem claim_C2_witness :
    prepare gitA changeA [("refs/heads/master", changeA)] [] = some resA ∧
    changeA.newrev = some 2 ∧
    ((2 : Nat) ∈ resA.detailed_commits ↔
      ((2 : Nat) ∈ reach gitA.repo 2 ∧
       ∀ b ∈ gitA.branches, ∀ e,
         exclusion_endpoint_spec changeA [("refs/heads/master", changeA)] [] b = some e →
         (2 : Nat) ∉ reach gitA.repo e)) :=
  ⟨by decide, rfl,
    claim_C2_detailed_set gitA changeA [("refs/heads/master", changeA)] [] resA 2
      (by decide) rfl 2⟩

set_option maxRecDepth 8000 in
/-- Witness for claim C3 at scenario C: a branch creation prepared without
error, with the detailed set {1}, whose oldest detailed commit 1 has parent 0,
so added is the rev-list walk from 0 to the new position. -/
theorem claim_C3_witness :
    changeC.newrev = some 1 ∧ changeC.oldrev = none ∧
    (∃ res, prepare gitC changeC [("refs/heads/feature", changeC)] [] = some res ∧
      res.removed_commits = [] ∧
      (res.detailed_commits = ∅ → res.added_commits = []) ∧
      (∀ oldest, res.detailedList.getLast? = some oldest →
        ((gitC.repo.parents oldest = [] → res.added_commits = []) ∧
         (∀ parent, (gitC.repo.parents oldest).head? = some parent →
            res.added_commits = (rev_list gitC.repo 1 [parent]).reverse)))) :=
  ⟨rfl, rfl,
    claim_C3_creation_added gitC changeC [("refs/heads/feature", changeC)] [] 1
      rfl rfl (by decide)⟩

set_option maxRecDepth 8000 in
/-- Witness for claim C7's amended theorem at scenario A. -/
theorem claim_C7_witness :
    prepare gitA changeA [("refs/heads/master", changeA)] [] = some resA ∧
    (((send_extra_emails gitA.repo "proj" 3 "master" resA).map (fun e => e.commitId) =
        resA.added_commits.filter (fun c => decide (c ∈ resA.detailed_commits))) ∧
     (∀ e ∈ send_extra_emails gitA.repo "proj" 3 "master" resA,
        e.countString =
          if 1 < resA.added_commits.length ∧ resA.needs_cover_email = true then
            ": " ++ toString (indexOfN resA.added_commits e.commitId + 1) ++ "/" ++
              toString resA.added_commits.length
          else "")) :=
  ⟨by decide,
    claim_C7_per_commit_emails gitA changeA [("refs/heads/master", changeA)] [] resA
      "proj" "master" 3 (by decide)⟩

/-! ## Classification: make_change (src lines 779-859) -/

/-- Modelled from re.match of the anchored pattern of one-or-more zeros
(src lines 789, 794): the canonicalized revision consists solely of zeros,
with the dollar anchor also accepting a single trailing newline. -/
def matches_zero_rev (s : String) : Bool :=
  let core := if s.data.getLast? = some '\n' then s.data.dropLast else s.data
  !core.isEmpty && core.all (fun c => c == '0')

/-- Modelled from re.match of an anchored namespace pattern such as
refs/tags/ followed by dot-star-dollar: the refname starts with the
namespace and the remainder holds no newline except possibly a final one. -/
def ref_pattern_match (pre : String) (refname : String) : Bool :=
  pre.data.isPrefixOf refname.data &&
    !(((refname.data.drop pre.data.length).dropLast).contains '\n')

/-- Modelled from the short-refname regex of RefChange.__init__ (src lines
131-135): refs/ then a slash-free segment then a slash captures the rest up
to a newline; otherwise the refname is kept whole. -/
def short_refname_of (refname : String) : String :=
  let l := refname.data
  if "refs/".data.isPrefixOf l then
    let rest := l.drop 5
    let seg := rest.takeWhile (fun c => !(c == '/'))
    if seg.length < rest.length then
      ⟨(rest.drop (seg.length + 1)).takeWhile (fun c => !(c == '\n'))⟩
    else refname
  else refname

/-- The Mailer constructed by RefChange.__init__ (src line 117); the
recipient list it will send to is the recipients field. -/
structure Mailer where
  smtp_host : String
  smtp_port : String
  sender : String
  sender_password : String
  user_fullname : String
  recipients : String
deriving DecidableEq, Repr

/-- Which RefChange subclass make_change instantiates. -/
inductive ChangeClass where
  | branchCreation
  | branchUpdate
  | branchDeletion
  | annotatedTagCreation
  | annotatedTagDeletion
  | annotatedTagUpdate
  | lightweightTagCreation
  | lightweightTagDeletion
  | lightweightTagUpdate
  | invalidRefDeletion
  | miscCreation
  | miscDeletion
  | miscUpdate
deriving DecidableEq, Repr

/-- A constructed Change object: everything RefChange.__init__ (and
MiscChange.__init__) stores.  The only recipient data a change carries is
mailer.recipients. -/
structure MadeChange where
  cls : ChangeClass
  mailer : Mailer
  refname : String
  short_refname : String
  oldrev : Option String
  newrev : Option String
  change_type : CType
  message : Option String
deriving DecidableEq, Repr

/-- RefChange.__init__ (src lines 114-135), plus the message stored by
MiscChange.__init__ when present. -/
def mk_ref_change (cls : ChangeClass) (message : Option String)
    (user_fullname recipients smtp_host smtp_port sender sender_password : String)
    (refname : String) (oldrev newrev : Option String) : MadeChange :=
  { cls := cls
    mailer := { smtp_host := smtp_host, smtp_port := smtp_port, sender := sender,
                sender_password := sender_password, user_fullname := user_fullname,
                recipients := recipients }
    refname := refname
    short_refname := short_refname_of refname
    oldrev := oldrev
    newrev := newrev
    change_type := changeTypeOf oldrev newrev
    message := message }

/-- Embedding of make_change (src lines 779-859).  rev_parse and cat_file_t
stand for the repository query service.  The both-absent branch returns none:
the source there runs `InvalidRefDeletion(refname, oldrev, newrev)`, passing
three positional arguments to the nine-parameter RefChange.__init__, which
raises TypeError before any change object exists (src line 811). -/
def make_change
    (user_fullname recipients smtp_host smtp_port smtp_sender smtp_sender_pass : String)
    (rev_parse : String → String) (cat_file_t : String → String)
    (oldrev newrev refname : String) : Option MadeChange :=
  let oldrev1 := rev_parse oldrev
  let newrev1 := rev_parse newrev
  let oldrevO : Option String := if matches_zero_rev oldrev1 then none else some oldrev1
  let newrevO : Option String := if matches_zero_rev newrev1 then none else some newrev1
  let mk := fun (cls : ChangeClass) (msg : Option String) =>
    mk_ref_change cls msg user_fullname recipients smtp_host smtp_port smtp_sender
      smtp_sender_pass refname oldrevO newrevO
  match changeTypeOf oldrevO newrevO, oldrevO, newrevO with
  | CType.invalidTag, _, _ => none
  | change_type, o, n =>
    let target := match change_type, o, n with
      | CType.delete, some o', _ => o'
      | _, _, some n' => n'
      | _, _, _ => ""
    let object_type := cat_file_t target
    let make_misc_change := fun (msg : String) =>
      match change_type with
      | CType.create => mk ChangeClass.miscCreation (some msg)
      | CType.delete => mk ChangeClass.miscDeletion (some msg)
      | _ => mk ChangeClass.miscUpdate (some msg)
    if ref_pattern_match "refs/tags/" refname then
      if object_type = "commit" then
        some (match change_type with
          | CType.create => mk ChangeClass.lightweightTagCreation none
          | CType.delete => mk ChangeClass.lightweightTagDeletion none
          | _ => mk ChangeClass.lightweightTagUpdate none)
      else if object_type = "tag" then
        some (match change_type with
          | CType.create => mk ChangeClass.annotatedTagCreation none
          | CType.delete => mk ChangeClass.annotatedTagDeletion none
          | _ => mk ChangeClass.annotatedTagUpdate none)
      else
        some (make_misc_change (target ++ " is not a commit or tag object"))
    else if ref_pattern_match "refs/heads/" refname then
      if object_type = "commit" then
        some (match change_type with
          | CType.create => mk ChangeClass.branchCreation none
          | CType.delete => mk ChangeClass.branchDeletion none
          | _ => mk ChangeClass.branchUpdate none)
      else
        some (make_misc_change (target ++ " is not a commit object"))
    else if ref_pattern_match "refs/remotes/" refname then
      some (make_misc_change
        ("'" ++ refname ++ "' is a tracking branch and doesn't belong on the server"))
    else
      some (make_misc_change ("'" ++ refname ++ "' is not in refs/heads/ or refs/tags/"))

set_option maxRecDepth 8000 in
/-- Claim C5 evaluated at its failing input: both endpoints resolve to the
all-zero sentinel, and classification produces no InvalidRefDelete change —
the embedded make_change yields none, the image of the TypeError raised by
calling the nine-parameter RefChange.__init__ with three arguments. -/
theorem claim_C5_invalid_ref_crash :
    make_change "Jane Dev" "commits-list@example.com" "smtp.example.com" "587"
      "sender@example.com" "hunter2" id (fun _ => "commit")
      "0000000000000000000000000000000000000000"
      "0000000000000000000000000000000000000000" "refs/heads/topic" = none := by
  decide

set_option maxRecDepth 8000 in
/-- Claim C6 counterexample: the creation of branch gnome-2-4 (a short
refname matching the release-branch pattern) yields a BranchCreation change
whose complete recipient data, mailer.recipients, equals exactly the
configured mailing list — no extra notification recipients are recorded
anywhere in the change. -/
theorem claim_C6_counterexample :
    (make_change "Jane Dev" "commits-list@example.com" "smtp.example.com" "587"
      "sender@example.com" "hunter2" id (fun _ => "commit")
      "0000000000000000000000000000000000000000" "abc123" "refs/heads/gnome-2-4").map
        (fun c => (c.cls, c.short_refname, c.mailer.recipients)) =
      some (ChangeClass.branchCreation, "gnome-2-4", "commits-list@example.com") := by
  decide

/-- Claim C6 (amended): every change built by make_change — in particular a
branch creation whose short refname matches the release-branch pattern —
records exactly the configured mailing list as its recipients; no extra
recipients are added for release branches. -/
theorem claim_C6_recipients
    (user_fullname recipients smtp_host smtp_port smtp_sender smtp_sender_pass : String)
    (rev_parse cat_file_t : String → String) (oldrev newrev refname : String)
    (c : MadeChange)
    (h : make_change user_fullname recipients smtp_host smtp_port smtp_sender
      smtp_sender_pass rev_parse cat_file_t oldrev newrev refname = some c)
    (hcls : c.cls = ChangeClass.branchCreation) :
    c.mailer.recipients = recipients := by
  by_cases hoz : matches_zero_rev (rev_parse oldrev) = true <;>
    by_cases hnz : matches_zero_rev (rev_parse newrev) = true
  · -- both endpoints absent: the source raises TypeError, no change exists
    simp only [make_change, changeTypeOf, hoz, hnz, if_true] at h
    exact Option.noConfusion h
  · -- creation: every reachable leaf builds its change with the configured
    -- recipients
    simp only [make_change, changeTypeOf, hoz, hnz, Bool.false_eq_true, Bool.true_eq_false,
      if_true, if_false] at h
    repeat' split at h
    all_goals (injection h with h6; subst h6; rfl)
  · -- deletion
    simp only [make_change, changeTypeOf, hoz, hnz, Bool.false_eq_true, Bool.true_eq_false,
      if_true, if_false] at h
    repeat' split at h
    all_goals (injection h with h6; subst h6; rfl)
  · -- update
    simp only [make_change, changeTypeOf, hoz, hnz, Bool.false_eq_true, Bool.true_eq_false,
      if_true, if_false] at h
    repeat' split at h
    all_goals (injection h with h6; subst h6; rfl)

/-- The change that creating refs/heads/gnome-2-4 actually produces. -/
def changeG : MadeChange :=
  mk_ref_change ChangeClass.branchCreation none "Jane Dev" "commits-list@example.com"
    "smtp.example.com" "587" "sender@example.com" "hunter2" "refs/heads/gnome-2-4"
    none (some "abc123")

set_option maxRecDepth 8000 in
/-- Witness for claim C6's amended theorem at the gnome-2-4 creation. -/
theorem claim_C6_witness :
    make_change "Jane Dev" "commits-list@example.com" "smtp.example.com" "587"
      "sender@example.com" "hunter2" id (fun _ => "commit")
      "0000000000000000000000000000000000000000" "abc123" "refs/heads/gnome-2-4" =
        some changeG ∧
    changeG.cls = ChangeClass.branchCreation ∧
    changeG.mailer.recipients = "commits-list@example.com" :=
  ⟨by decide, rfl,
    claim_C6_recipients "Jane Dev" "commits-list@example.com" "smtp.example.com" "587"
      "sender@example.com" "hunter2" id (fun _ => "commit")
      "0000000000000000000000000000000000000000" "abc123" "refs/heads/gnome-2-4"
      changeG (by decide) rfl⟩

/-! ## Annotated tags: AnnotatedTagChange.parse_tag_object (src lines 487-518) -/

/-- Python whitespace for str.strip() and the regex escape for whitespace
(space, tab, newline, carriage return, vertical tab, form feed). -/
def isPySpace (c : Char) : Bool :=
  c == ' ' || c == '\t' || c == '\n' || c == '\r' || c == '\x0b' || c == '\x0c'

/-- line.strip() == "" holds exactly when every character is whitespace. -/
def py_strip_empty (s : String) : Bool :=
  s.data.all isPySpace

/-- Modelled from re.match of the tagger pattern (src line 513): the line
starts with tagger followed by at least one whitespace character; group one
is everything up to and including the first closing angle bracket; after
optional whitespace, group two is the rest of the line up to a newline. -/
def tagger_match (line : String) : Option (String × String) :=
  let l := line.data
  if "tagger".data.isPrefixOf l then
    let rest := l.drop 6
    let ws := rest.takeWhile isPySpace
    if ws.isEmpty then none
    else
      let rest2 := rest.drop ws.length
      let pre := rest2.takeWhile (fun c => !(c == '>'))
      if pre.length < rest2.length then
        let rest3 := rest2.drop (pre.length + 1)
        let rest4 := rest3.drop (rest3.takeWhile isPySpace).length
        some (⟨pre ++ ['>']⟩, ⟨rest4.takeWhile (fun c => !(c == '\n'))⟩)
      else none
  else none

/-- Modelled from re.match of the PGP signature marker (src line 502). -/
def pgp_line (line : String) : Bool :=
  "-----BEGIN PGP SIGNATURE-----".data.isPrefixOf line.data

/-- What parse_tag_object stores on the change. -/
structure TagInfo where
  tagger : String
  date : String
  message : String
  have_signature : Bool
deriving DecidableEq, Repr

/-- Loop state of parse_tag_object. -/
structure TagParseState where
  in_message : Bool
  tagger : String
  date : String
  message_lines : List String
  have_signature : Bool

/-- The line loop of parse_tag_object (src lines 497-517): before the first
blank line, a tagger line overwrites the placeholders; after it, lines
accumulate into the message until a PGP signature marker stops the loop. -/
def parse_tag_loop (st : TagParseState) : List String → TagParseState
  | [] => st
  | line :: rest =>
    if st.in_message then
      if pgp_line line then { st with have_signature := true }
      else parse_tag_loop { st with message_lines := st.message_lines ++ [line] } rest
    else
      if py_strip_empty line then parse_tag_loop { st with in_message := true } rest
      else
        match tagger_match line with
        | some td => parse_tag_loop { st with tagger := td.1, date := td.2 } rest
        | none => parse_tag_loop st rest

/-- Embedding of parse_tag_object (src lines 487-518): the tagger and date
fields are initialised to placeholder values before the loop, and the message
is the indented join of the accumulated message lines. -/
def parse_tag_object (lines : List String) : TagInfo :=
  let st := parse_tag_loop
    { in_message := false
      tagger := "unknown <unknown@example.com>"
      date := "at an unknown time"
      message_lines := []
      have_signature := false } lines
  { tagger := st.tagger
    date := st.date
    message := String.intercalate "\n" (st.message_lines.map (fun line => "    " ++ line))
    have_signature := st.have_signature }

/-- The message body as claim C8 describes it: the lines after the first
blank line, truncated at a PGP signature marker. -/
def spec_message_lines (lines : List String) : List String :=
  ((lines.dropWhile (fun l => !(py_strip_empty l))).drop 1).takeWhile
    (fun l => !(pgp_line l))

theorem parse_tag_loop_in_message (lines : List String) :
    ∀ st : TagParseState, st.in_message = true →
      (parse_tag_loop st lines).tagger = st.tagger ∧
      (parse_tag_loop st lines).date = st.date ∧
      (parse_tag_loop st lines).message_lines =
        st.message_lines ++ lines.takeWhile (fun l => !(pgp_line l)) := by
  induction lines with
  | nil => intro st _; simp [parse_tag_loop]
  | cons line rest ih =>
    intro st hst
    obtain ⟨im, tg, dt, ml, hs⟩ := st
    simp only at hst
    subst hst
    by_cases hp : pgp_line line = true
    · simp [parse_tag_loop, hp, List.takeWhile_cons]
    · have hp' : pgp_line line = false := by
        cases hq : pgp_line line
        · rfl
        · exact absurd hq hp
      obtain ⟨h1, h2, h3⟩ := ih ⟨true, tg, dt, ml ++ [line], hs⟩ rfl
      simp only [parse_tag_loop, if_true, hp', Bool.false_eq_true, if_false] at h1 h2 h3 ⊢
      refine ⟨h1, h2, ?_⟩
      rw [h3]
      simp [List.takeWhile_cons, hp']

theorem parse_tag_loop_no_tagger (lines : List String) :
    ∀ st : TagParseState, st.in_message = false →
      (∀ l ∈ lines, tagger_match l = none) →
      (parse_tag_loop st lines).tagger = st.tagger ∧
      (parse_tag_loop st lines).date = st.date ∧
      (parse_tag_loop st lines).message_lines =
        st.message_lines ++ spec_message_lines lines := by
  induction lines with
  | nil => intro st _ _; simp [parse_tag_loop, spec_message_lines]
  | cons line rest ih =>
    intro st hst h
    obtain ⟨im, tg, dt, ml, hs⟩ := st
    simp only at hst
    subst hst
    by_cases hb : py_strip_empty line = true
    · obtain ⟨h1, h2, h3⟩ := parse_tag_loop_in_message rest ⟨true, tg, dt, ml, hs⟩ rfl
      simp only [parse_tag_loop, hb, if_true, Bool.false_eq_true, if_false] at h1 h2 h3 ⊢
      refine ⟨h1, h2, ?_⟩
      rw [h3]
      simp [spec_message_lines, List.dropWhile_cons, hb]
    · have hb' : py_strip_empty line = false := by
        cases hq : py_strip_empty line
        · rfl
        · exact absurd hq hb
      have htm := h line (List.mem_cons_self _ _)
      obtain ⟨h1, h2, h3⟩ :=
        ih ⟨false, tg, dt, ml, hs⟩ rfl (fun l hl => h l (List.mem_cons_of_mem _ hl))
      simp only [parse_tag_loop, hb', Bool.false_eq_true, if_false, htm] at h1 h2 h3 ⊢
      refine ⟨h1, h2, ?_⟩
      rw [h3]
      simp [spec_message_lines, List.dropWhile_cons, hb']

/-- Claim C8: parsing a tag payload that contains no recognizable tagger line
never fails: the tagger and date fields keep the placeholder values assigned
before the loop, and the message body — the lines after the first blank line
up to a signature marker, each indented — is still extracted. -/
theorem claim_C8_tag_fallback (lines : List String)
    (h : ∀ l ∈ lines, tagger_match l = none) :
    (parse_tag_object lines).tagger = "unknown <unknown@example.com>" ∧
    (parse_tag_object lines).date = "at an unknown time" ∧
    (parse_tag_object lines).message =
      String.intercalate "\n"
        ((spec_message_lines lines).map (fun line => "    " ++ line)) := by
  obtain ⟨h1, h2, h3⟩ := parse_tag_loop_no_tagger lines
    { in_message := false
      tagger := "unknown <unknown@example.com>"
      date := "at an unknown time"
      message_lines := []
      have_signature := false } rfl h
  unfold parse_tag_object
  refine ⟨h1, h2, ?_⟩
  dsimp only
  rw [h3]
  simp

/-- A tag payload without any tagger line. -/
def tagLinesB : List String :=
  ["object 123", "type commit", "tag v1", "", "release notes"]

/-- Witness for claim C8 at a concrete tagger-less payload. -/
theorem claim_C8_witness :
    (∀ l ∈ tagLinesB, tagger_match l = none) ∧
    ((parse_tag_object tagLinesB).tagger = "unknown <unknown@example.com>" ∧
     (parse_tag_object tagLinesB).date = "at an unknown time" ∧
     (parse_tag_object tagLinesB).message =
       String.intercalate "\n"
         ((spec_message_lines tagLinesB).map (fun line => "    " ++ line))) :=
  ⟨by decide, claim_C8_tag_fallback tagLinesB (by decide)⟩

/-! ## MiscUpdate.get_body (src lines 753-775) -/

theorem strip_string_wrap (mid : List Char) :
    strip_string ('\n' :: (mid ++ ['\n'])) = mid := by
  rw [strip_string_eq_strip_spec]
  unfold strip_spec
  have hcons : ('\n' :: (mid ++ ['\n'])) = ('\n' :: mid) ++ ['\n'] := by simp
  have hlast : ('\n' :: (mid ++ ['\n'])).getLast? = some '\n' := by
    rw [hcons]
    exact List.getLast?_concat _
  have hlen : 1 < ('\n' :: (mid ++ ['\n'])).length := by
    simp
  dsimp only [List.head?_cons, List.tail_cons]
  rw [if_pos rfl, if_pos ⟨hlen, hlast⟩]
  exact List.dropLast_concat

theorem strip_string_s_wrap (mid : String) :
    strip_string_s ("\n" ++ mid ++ "\n") = mid := by
  unfold strip_string_s
  apply String.ext
  have hdata : ("\n" ++ mid ++ "\n").data = '\n' :: (mid.data ++ ['\n']) := by
    simp [String.data_append]
  rw [hdata, strip_string_wrap]

/-- Embedding of MiscUpdate.get_body (src lines 757-775): the template is the
source's literal with each placeholder spliced in at its position in the
template; the source applies strip_string to the template before
substitution, and since the template's first and last characters are the
literal newlines shown here, that equals stripping the substituted string. -/
def misc_update_get_body (refname oldrev newrev message : String) : String :=
  strip_string_s ("\n" ++
    ("The ref '" ++ refname ++ "' was updated from:\n\n " ++ newrev ++ "\n\nTo:\n\n " ++
      oldrev ++ "\n\nThis is unexpected because:\n\n " ++ message) ++ "\n")

/-- Claim C10: the body rendered for a misc update places the new revision
under the heading was-updated-from and the old revision under the heading To,
i.e. the two revisions appear interchanged relative to those labels. -/
theorem claim_C10_misc_update_swapped (refname oldrev newrev message : String) :
    misc_update_get_body refname oldrev newrev message =
      "The ref '" ++ refname ++ "' was updated from:\n\n " ++ newrev ++ "\n\nTo:\n\n " ++
        oldrev ++ "\n\nThis is unexpected because:\n\n " ++ message := by
  unfold misc_update_get_body
  exact strip_string_s_wrap _

/-! ## Dispatcher: main's batch loops (src lines 922-928) -/

/-- Observable steps of main's two loops over the classified changes:
entering a change into all_changes, calling prepare() (recording the
all_changes keys and the processed_changes keys visible at that moment),
emitting its notifications, and entering it into processed_changes. -/
inductive MainEvent where
  | enterAll (i : Nat) (refname : String)
  | prepareCall (i : Nat) (all_names : List String) (processed_names : List String)
  | emitCall (i : Nat)
  | markProcessed (i : Nat) (refname : String)
deriving DecidableEq, Repr

/-- First loop of main (src lines 922-923): every change is keyed into
all_changes, in order. -/
def register_loop : List ChangeRec → Nat → List MainEvent
  | [], _ => []
  | c :: rest, i => MainEvent.enterAll i c.refname :: register_loop rest (i + 1)

/-- Second loop of main (src lines 925-928): for each change in order,
prepare() runs against the already complete all_changes and the
processed_changes accumulated so far, the emails are sent, and only then is
the change recorded as processed. -/
def process_loop (all_names : List String) :
    List ChangeRec → List String → Nat → List MainEvent
  | [], _, _ => []
  | c :: rest, processed_names, i =>
    MainEvent.prepareCall i all_names processed_names ::
    MainEvent.emitCall i ::
    MainEvent.markProcessed i c.refname ::
    process_loop all_names rest (processed_names ++ [c.refname]) (i + 1)

/-- The trace of one invocation of main over a batch of classified changes:
loop one registers every change before loop two prepares and emits them. -/
def main_run (changes : List ChangeRec) : List MainEvent :=
  register_loop changes 0 ++
    process_loop (changes.map (fun c => c.refname)) changes [] 0

theorem register_loop_length : ∀ (l : List ChangeRec) (i : Nat),
    (register_loop l i).length = l.length := by
  intro l
  induction l with
  | nil => intro i; rfl
  | cons c rest ih => intro i; simp [register_loop, ih]

theorem register_loop_get? : ∀ (l : List ChangeRec) (i j : Nat) (c : ChangeRec),
    l.get? j = some c →
    (register_loop l i).get? j = some (MainEvent.enterAll (i + j) c.refname) := by
  intro l
  induction l with
  | nil => intro i j c h; simp at h
  | cons c0 rest ih =>
    intro i j c h
    cases j with
    | zero =>
      simp only [List.get?] at h
      cases h
      simp [register_loop]
    | succ j' =>
      simp only [List.get?] at h
      have hrec := ih (i + 1) j' c h
      have harith : i + 1 + j' = i + (j' + 1) := by omega
      rw [harith] at hrec
      simp only [register_loop, List.get?_cons_succ]
      exact hrec

theorem process_loop_get? : ∀ (l : List ChangeRec) (allN procN : List String)
    (i j : Nat) (c : ChangeRec), l.get? j = some c →
    (process_loop allN l procN i).get? (3 * j) =
      some (MainEvent.prepareCall (i + j) allN
        (procN ++ (l.take j).map (fun x => x.refname))) ∧
    (process_loop allN l procN i).get? (3 * j + 1) =
      some (MainEvent.emitCall (i + j)) ∧
    (process_loop allN l procN i).get? (3 * j + 2) =
      some (MainEvent.markProcessed (i + j) c.refname) := by
  intro l
  induction l with
  | nil => intro allN procN i j c h; simp at h
  | cons c0 rest ih =>
    intro allN procN i j c h
    cases j with
    | zero =>
      simp only [List.get?] at h
      cases h
      simp [process_loop]
    | succ j' =>
      simp only [List.get?] at h
      obtain ⟨ih1, ih2, ih3⟩ := ih allN (procN ++ [c0.refname]) (i + 1) j' c h
      have h3 : 3 * (j' + 1) = 3 * j' + 2 + 1 := by omega
      have h4 : 3 * (j' + 1) + 1 = 3 * j' + 1 + 3 := by omega
      have h5 : 3 * (j' + 1) + 2 = 3 * j' + 2 + 3 := by omega
      refine ⟨?_, ?_, ?_⟩
      · rw [h3]
        show (process_loop allN rest (procN ++ [c0.refname]) (i + 1)).get? (3 * j') =
          some (MainEvent.prepareCall (i + (j' + 1)) allN
            (procN ++ ((c0 :: rest).take (j' + 1)).map (fun x => x.refname)))
        rw [ih1]
        congr 1
        have hi : i + 1 + j' = i + (j' + 1) := by omega
        rw [hi]
        congr 1
        simp [List.take_cons, List.append_assoc]
      · rw [h4]
        show (process_loop allN rest (procN ++ [c0.refname]) (i + 1)).get? (3 * j' + 1) =
          some (MainEvent.emitCall (i + (j' + 1)))
        rw [ih2]
        congr 2
        omega
      · rw [h5]
        show (process_loop allN rest (procN ++ [c0.refname]) (i + 1)).get? (3 * j' + 2) =
          some (MainEvent.markProcessed (i + (j' + 1)) c.refname)
        rw [ih3]
        congr 2
        omega

/-- Claim C4: in the trace of main over a batch, transition i is entered into
all_changes at position i — before any prepare(), which all sit at positions
at or beyond the batch length; its prepare() at position length + 3i sees the
fully populated all_changes and exactly the earlier transitions in
processed_changes; its emission follows at once and it is marked processed
before transition i+1's prepare() (the final two arithmetic facts). -/
theorem claim_C4_dispatch_order (changes : List ChangeRec) (i : Nat) (c : ChangeRec)
    (h : changes.get? i = some c) :
    (main_run changes).get? i = some (MainEvent.enterAll i c.refname) ∧
    (main_run changes).get? (changes.length + 3 * i) =
      some (MainEvent.prepareCall i (changes.map (fun x => x.refname))
        ((changes.take i).map (fun x => x.refname))) ∧
    (main_run changes).get? (changes.length + 3 * i + 1) =
      some (MainEvent.emitCall i) ∧
    (main_run changes).get? (changes.length + 3 * i + 2) =
      some (MainEvent.markProcessed i c.refname) ∧
    (∀ j, i < changes.length + 3 * j) ∧
    (∀ j, i < j → changes.length + 3 * i + 2 < changes.length + 3 * j) := by
  have hilen : i < changes.length := by
    by_contra hge
    rw [List.get?_eq_none.mpr (by omega)] at h
    exact Option.noConfusion h
  obtain ⟨hp0, hp1, hp2⟩ :=
    process_loop_get? changes (changes.map (fun x => x.refname)) [] 0 i c h
  rw [Nat.zero_add] at hp0 hp1 hp2
  rw [List.nil_append] at hp0
  refine ⟨?_, ?_, ?_, ?_, ?_, ?_⟩
  · unfold main_run
    rw [List.get?_append (by rw [register_loop_length]; exact hilen)]
    have hreg := register_loop_get? changes 0 i c h
    rw [Nat.zero_add] at hreg
    exact hreg
  · unfold main_run
    rw [List.get?_append_right (by rw [register_loop_length]; omega)]
    rw [register_loop_length]
    have harith : changes.length + 3 * i - changes.length = 3 * i := by omega
    rw [harith]
    exact hp0
  · unfold main_run
    rw [List.get?_append_right (by rw [register_loop_length]; omega)]
    rw [register_loop_length]
    have harith : changes.length + 3 * i + 1 - changes.length = 3 * i + 1 := by omega
    rw [harith]
    exact hp1
  · unfold main_run
    rw [List.get?_append_right (by rw [register_loop_length]; omega)]
    rw [register_loop_length]
    have harith : changes.length + 3 * i + 2 - changes.length = 3 * i + 2 := by omega
    rw [harith]
    exact hp2
  · intro j
    omega
  · intro j hj
    omega

/-- A two-transition batch used as evidence for claim C4. -/
def changesW : List ChangeRec :=
  [{ refname := "refs/heads/a", oldrev := some 1, newrev := some 2 },
   { refname := "refs/heads/b", oldrev := none, newrev := some 1 }]

/-- Witness for claim C4 at the two-transition batch, taken at i = 1. -/
theorem claim_C4_witness :
    changesW.get? 1 = some { refname := "refs/heads/b", oldrev := none, newrev := some 1 } ∧
    ((main_run changesW).get? 1 = some (MainEvent.enterAll 1 "refs/heads/b") ∧
     (main_run changesW).get? (changesW.length + 3 * 1) =
       some (MainEvent.prepareCall 1 (changesW.map (fun x => x.refname))
         ((changesW.take 1).map (fun x => x.refname))) ∧
     (main_run changesW).get? (changesW.length + 3 * 1 + 1) =
       some (MainEvent.emitCall 1) ∧
     (main_run changesW).get? (changesW.length + 3 * 1 + 2) =
       some (MainEvent.markProcessed 1 "refs/heads/b") ∧
     (∀ j, 1 < changesW.length + 3 * j) ∧
     (∀ j, 1 < j → changesW.length + 3 * 1 + 2 < changesW.length + 3 * j)) :=
  ⟨by decide,
    claim_C4_dispatch_order changesW 1
      { refname := "refs/heads/b", oldrev := none, newrev := some 1 } (by decide)⟩

/-- Claim C9: strip_string removes exactly one leading newline when the
string starts with one and exactly one trailing newline when the length
exceeds one and the string ends with one, keeping everything else in order;
in particular a lone newline becomes the empty string and a single
non-newline character is returned unchanged. -/
theorem claim_C9_strip_string :
    (∀ s : String, strip_string_s s = ⟨strip_spec s.data⟩) ∧
    strip_string_s "\n" = "" ∧
    (∀ c : Char, c ≠ '\n' → strip_string_s ⟨[c]⟩ = ⟨[c]⟩) := by
  refine ⟨?_, ?_, ?_⟩
  · intro s
    unfold strip_string_s
    rw [strip_string_eq_strip_spec]
  · rfl
  · intro c hc
    unfold strip_string_s
    rw [strip_string_eq_strip_spec]
    unfold strip_spec
    have h1 : ¬ (([c] : List Char).head? = some '\n') := by
      simp [hc]
    have h2 : ¬ (1 < ([c] : List Char).length ∧ ([c] : List Char).getLast? = some '\n') := by
      simp
    rw [if_neg h1, if_neg h2]

/-- Witness for claim C9's non-newline single-character case at the letter a. -/
theorem claim_C9_witness :
    ('a' ≠ '\n') ∧ strip_string_s ⟨['a']⟩ = ⟨['a']⟩ :=
  ⟨by decide, claim_C9_strip_string.2.2 'a' (by decide)⟩

end EmailHook
